import Mathlib

/-!
Shallow embedding of the `rodaine/table` Go library (the version in
`src/unnamed/part_001`, which is the full implementation: the multi-line
row store, the renderer, the stable sorter, the transposer and the JSON
exporter), together with theorems settling the specification claims.

Conventions of the embedding:
* Go strings are modelled as Lean `String`s (valid UTF-8; byte-wise
  lexicographic order on UTF-8 coincides with codepoint order, so Lean's
  `String` order models Go's `<` on strings).
* Go `int` values that are provably non-negative in every reachable state
  (padding, widths) are modelled as `Nat`; caller-supplied indices are `Int`.
* A Go run-time panic (index out of range, nil dereference) is modelled
  explicitly: partial computations return `Option`/an outcome type whose
  `none`/`panicked` case is the panic.
* Values passed to `AddRow` are modelled post-`fmt.Sprint`, i.e. as the
  strings Go stores (`fmt.Sprint` on a string is the identity).
-/

namespace TableSpec

/-! ## String helpers (models of the `strings` standard library) -/

/-- Split a character list at every occurrence of `c`; model of
`strings.Split(s, sep)` for a one-character separator (Go splits on the
byte `0x0A` for `"\n"`, which in valid UTF-8 is exactly the codepoint). -/
def splitCh (c : Char) : List Char → List (List Char)
  | [] => [[]]
  | x :: xs =>
    match splitCh c xs with
    | [] => [[]]
    | h :: t => if x = c then [] :: h :: t else (x :: h) :: t

/-- Model of `strings.Split(s, "\n")`. -/
def goSplitLines (s : String) : List String :=
  (splitCh '\n' s.data).map (fun l => ⟨l⟩)

/-- Model of `strings.Count(s, "\n")` (a one-character pattern, so the
count is the number of `'\n'` codepoints). -/
def goCountNL (s : String) : Nat :=
  s.data.count '\n'

theorem splitCh_ne_nil (c : Char) (l : List Char) : splitCh c l ≠ [] := by
  cases l with
  | nil => simp [splitCh]
  | cons x xs =>
    cases h : splitCh c xs with
    | nil => simp [splitCh, h]
    | cons hd tl =>
      simp only [splitCh, h]
      by_cases hx : x = c <;> simp [hx]

theorem splitCh_length (c : Char) (l : List Char) :
    (splitCh c l).length = l.count c + 1 := by
  induction l with
  | nil => simp [splitCh]
  | cons x xs ih =>
    cases h : splitCh c xs with
    | nil => exact absurd h (splitCh_ne_nil c xs)
    | cons hd tl =>
      rw [h] at ih
      simp only [List.length_cons] at ih
      simp only [splitCh, h]
      by_cases hx : x = c
      · subst hx
        rw [if_pos rfl]
        simp only [List.length_cons, List.count_cons_self]
        omega
      · rw [if_neg hx, List.count_cons_of_ne (fun hh => hx hh.symm)]
        simp only [List.length_cons]
        omega

/-- The number of lines `strings.Split(s, "\n")` produces is one more than
the number of line breaks counted by `strings.Count(s, "\n")`. -/
theorem goSplitLines_length (s : String) :
    (goSplitLines s).length = goCountNL s + 1 := by
  simp [goSplitLines, goCountNL, splitCh_length]

/-! ## The table data model -/

/-- Model of the Go `Formatter` type `func(string, ...interface{}) string`:
the format string together with the (already stringified) values. -/
def Fmtr : Type := String → List String → String

/-- Model of the `table` struct of the source.  The output `io.Writer` is
not a field: rendering and export return the written bytes as a `String`
instead of writing them to a sink. -/
structure GoTable where
  HeaderFormatter : Option Fmtr
  FirstColumnFormatter : Option Fmtr
  StandoutFormatter : Option Fmtr
  /-- `Padding int`; every write goes through `WithPadding`, which clamps
  negatives to zero, so the stored value is a `Nat`. -/
  Padding : Nat
  /-- `Width WidthFunc`, the configured display-width metric. -/
  Width : String → Nat
  /-- `HeaderSeparatorRune rune`; the zero rune means "no separator". -/
  HeaderSeparatorRune : Char
  PrintHeaders : Bool
  header : List String
  rows : List (List String)
  widths : List Nat

/-- Rows never outgrow the header in any reachable table: `AddRowAsArray`
builds rows of exactly the header length, `SetRows` truncates longer rows,
and the header-append operations only grow the header. -/
def rowsFit (t : GoTable) : Prop :=
  ∀ r ∈ t.rows, r.length ≤ t.header.length

/-- Model of `WithPadding`: negative values clamp to zero. -/
def WithPadding (t : GoTable) (p : Int) : GoTable :=
  { t with Padding := p.toNat }

/-- Model of `SetRows`: replaces the rows, truncating rows longer than the
header and keeping shorter rows as they are. -/
def SetRows (t : GoTable) (rows : List (List String)) : GoTable :=
  { t with rows := rows.map (fun r =>
      if r.length > t.header.length then r.take t.header.length else r) }

/-- A table as produced by `New` with the package defaults (`DefaultPadding = 2`,
nil formatters, rune-count width metric, zero separator rune, headers printed),
with the given header and rows. -/
def mkTable (h : List String) (rs : List (List String)) : GoTable :=
  { HeaderFormatter := none
    FirstColumnFormatter := none
    StandoutFormatter := none
    Padding := 2
    Width := fun s => s.length
    HeaderSeparatorRune := Char.ofNat 0
    PrintHeaders := true
    header := h
    rows := rs
    widths := [] }

/-! ## The row store: `safeOffset`, `AddRowAsArray` -/

/-- Model of `safeOffset`: index into the split lines, empty string when out
of range. -/
def safeOffset (sarr : List String) (idx : Nat) : String :=
  if idx ≥ sarr.length then "" else sarr.getD idx ""

/-- The physical row the inner loop of `AddRowAsArray` builds for line
index `i`: a row of exactly `C` cells, initialised to empty strings, where
cell `j` receives line `i` of value `j` for each `j` below both the value
count and `C` (the loop breaks at `j = C`, ignoring excess values). -/
def buildSplitRow (C : Nat) (vals : List String) (i : Nat) : List String :=
  (List.range C).map (fun j =>
    if j < vals.length then safeOffset (goSplitLines (vals.getD j "")) i else "")

/-- The `maxNumNewlines` accumulator loop of `AddRowAsArray`. -/
def maxNumNewlines (vals : List String) : Nat :=
  vals.foldl (fun acc v => Nat.max (goCountNL v) acc) 0

/-- Model of `AddRowAsArray` (and hence `AddRow`, which forwards to it):
appends one physical row per line index `0 ≤ i ≤ maxNumNewlines`. -/
def AddRowAsArray (t : GoTable) (vals : List String) : GoTable :=
  let newRows := (List.range (maxNumNewlines vals + 1)).map
    (buildSplitRow t.header.length vals)
  { t with rows := t.rows ++ newRows }

/-! ## Width calculation and rendering -/

/-- One pass of the width-update loop in `calculateWidths`: walk a row and
the current widths in lockstep, raising each width to the padded metric of
the cell when larger.  (Go would panic on a row longer than the widths
slice; such rows do not arise — see `rowsFit` — and the model stops at the
end of the widths instead.) -/
def updateWidths (wf : String → Nat) (p : Nat) : List Nat → List String → List Nat
  | ws, [] => ws
  | [], _ :: _ => []
  | w :: ws, v :: vs => Nat.max w (wf v + p) :: updateWidths wf p ws vs

/-- Model of `calculateWidths`: start from zeros of the header's length,
fold the rows, then the header. -/
def calculateWidths (t : GoTable) : List Nat :=
  updateWidths t.Width t.Padding
    (t.rows.foldl (updateWidths t.Width t.Padding)
      (List.replicate t.header.length 0))
    t.header

/-- Model of `lenOffset`: the spaces needed to pad `s` to width `w`
(none when the cell already meets or exceeds the width; `Nat`
subtraction models Go's `if l <= 0` guard). -/
def lenOffset (wf : String → Nat) (s : String) (w : Nat) : String :=
  ⟨List.replicate (w - wf s) ' '⟩

/-- Model of `applyWidths`: pad every cell of the row to its column width.
(Go indexes `widths[i]` and would panic past its end; rows never outgrow
the widths in reachable tables, and the model truncates instead.) -/
def applyWidths (wf : String → Nat) (row : List String) (widths : List Nat) :
    List String :=
  List.zipWith (fun s w => s ++ lenOffset wf s w) row widths

/-- Model of `fmt.Fprintf` with the format `strings.Repeat("%s", n) + "\n"`:
each verb consumes one value, missing values print Go's
`%!s(MISSING)` marker. -/
def sprintfSs (n : Nat) (vals : List String) : String :=
  String.join ((List.range n).map (fun i => vals.getD i "%!s(MISSING)")) ++ "\n"

/-- The format string `strings.Repeat("%s", len(t.header)) + "\n"` built at
the top of `Print`, as passed to the formatters. -/
def goFormat (n : Nat) : String :=
  String.join (List.replicate n "%s") ++ "\n"

/-- Model of `printHeader`. -/
def printHeaderStr (t : GoTable) (widths : List Nat) : String :=
  let vals := applyWidths t.Width t.header widths
  match t.HeaderFormatter with
  | some hf => hf (goFormat t.header.length) vals
  | none => sprintfSs t.header.length vals

/-- Model of `printHeaderSeparator`: per column, the separator rune repeated
`metric(header cell) / metric(separator rune)` times (Go panics on a zero
divisor; with the default rune-count metric the divisor is 1, and the model
uses `Nat` division, which returns 0 there). -/
def printHeaderSeparatorStr (t : GoTable) (widths : List Nat) : String :=
  let sepW := t.Width ⟨[t.HeaderSeparatorRune]⟩
  let separators := t.header.map (fun h =>
    (⟨List.replicate (t.Width h / sepW) t.HeaderSeparatorRune⟩ : String))
  let vals := applyWidths t.Width separators widths
  match t.HeaderFormatter with
  | some hf => hf (goFormat t.header.length) vals
  | none => sprintfSs t.header.length vals

/-- Model of `printRow`: pad the cells, apply the first-column formatter,
then — on alternate rows — the standout formatter, then print through the
format string.  (Go reads `vals[0]` unconditionally when the first-column
formatter is set and would panic on an empty row; `List.set` is a no-op
there.) -/
def printRowStr (t : GoTable) (widths : List Nat) (row : List String)
    (alternate : Bool) : String :=
  let vals := applyWidths t.Width row widths
  let vals := match t.FirstColumnFormatter with
    | some fcf => vals.set 0 (fcf "%s" [vals.getD 0 ""])
    | none => vals
  let vals := match alternate, t.StandoutFormatter with
    | true, some sf => vals.map (fun v => sf "%s" [v])
    | _, _ => vals
  sprintfSs t.header.length vals

/-- Model of `Print`: recompute the widths, then emit the header (and the
separator when a non-zero rune is configured) if `PrintHeaders`, then every
row with its 0-based parity.  Returns the mutated table (the `widths` field
is the only field `Print` writes) and the bytes written. -/
def Print (t : GoTable) : GoTable × String :=
  let ws := calculateWidths t
  let headerPart :=
    if t.PrintHeaders then
      printHeaderStr t ws ++
        (if t.HeaderSeparatorRune ≠ Char.ofNat 0 then
          printHeaderSeparatorStr t ws else "")
    else ""
  let rowsPart := String.join (t.rows.enum.map (fun p =>
    printRowStr t ws p.2 (p.1 % 2 == 1)))
  ({ t with widths := ws }, headerPart ++ rowsPart)

/-! ## Sorting

`SortBy`/`SortByMultiple` call `sort.SliceStable`, whose contract is a
stable sort under the supplied `less` predicate.  We model it by the
insertion sort `sort.SliceStable` itself runs (compare each new element
with its left neighbour and bubble it left while strictly less — only
adjacent exchanges under a positive `less`, which is what makes the sort
stable).  A comparison that indexes past the end of a row is a Go panic;
the whole sort is therefore threaded through `Option`, with `none` as the
panic.  Rows are paired with their original indices so that theorems can
speak about the permutation; the indices never influence a comparison and
are projected away at the end. -/

/-- Insert `x` at the right end of the (reversed) already-sorted prefix,
bubbling it left past every element it is strictly `less` than.  The list
argument and result are reversed: most recently placed element first. -/
def insRev {α : Type} (less : α → α → Option Bool) (x : α) :
    List α → Option (List α)
  | [] => some [x]
  | w :: ws => do
    let b ← less x w
    if b then do
      let r ← insRev less x ws
      pure (w :: r)
    else
      pure (x :: w :: ws)

/-- The insertion-sort pass over the whole list, producing the reversed
sorted list. -/
def sortRevM {α : Type} (less : α → α → Option Bool) (l : List α) :
    Option (List α) :=
  l.foldlM (fun acc x => insRev less x acc) []

/-- Model of `sort.SliceStable(x, less)`. -/
def sliceStable {α : Type} (less : α → α → Option Bool) (l : List α) :
    Option (List α) :=
  (sortRevM less l).map List.reverse

/-- The `less` closure of `SortBy`:
`cmpFn(t.rows[i][columnIndex], t.rows[j][columnIndex]) < 0`, where each
cell access panics (`none`) when the row is shorter than the column. -/
def rowLessM (n : Nat) (cmp : String → String → Int) (a b : List String) :
    Option Bool := do
  let x ← a.get? n
  let y ← b.get? n
  pure (cmp x y < 0)

/-- Outcome of a sort call: a validation error (returned before any
reordering, carrying the untouched table), a run-time panic inside
`sort.SliceStable`, or normal completion. -/
inductive SortOutcome where
  | errored (t : GoTable)
  | panicked
  | ok (t : GoTable)

/-- Model of `SortBy`: validate the column index (the Go error message is
`"invalid column index %d (len %d)"`), then stable-sort the rows by the
comparator on that column. -/
def SortBy (t : GoTable) (n : Int) (cmp : String → String → Int) :
    SortOutcome :=
  if n < 0 ∨ (t.header.length : Int) ≤ n then .errored t
  else
    match sliceStable (fun p q => rowLessM n.toNat cmp p.2 q.2) t.rows.enum with
    | none => .panicked
    | some l => .ok { t with rows := l.map Prod.snd }

/-- Model of the `SortCriterion` struct. -/
structure SortCriterion where
  ColumnIndex : Int
  Compare : String → String → Int

/-- The `less` closure of `SortByMultiple`: walk the criteria in order,
returning on the first strictly negative or strictly positive comparison
and falling through on ties; all criteria tied means not-less. -/
def multiLessM (criteria : List SortCriterion) (a b : List String) :
    Option Bool :=
  match criteria with
  | [] => some false
  | c :: rest => do
    let x ← a.get? c.ColumnIndex.toNat
    let y ← b.get? c.ColumnIndex.toNat
    let r := c.Compare x y
    if r < 0 then pure true
    else if 0 < r then pure false
    else multiLessM rest a b

/-- Model of `SortByMultiple`: validate every criterion's column index up
front, then stable-sort with the lexicographic criteria predicate. -/
def SortByMultiple (t : GoTable) (criteria : List SortCriterion) :
    SortOutcome :=
  if ∃ c ∈ criteria, c.ColumnIndex < 0 ∨ (t.header.length : Int) ≤ c.ColumnIndex
  then .errored t
  else
    match sliceStable (fun p q => multiLessM criteria p.2 q.2) t.rows.enum with
    | none => .panicked
    | some l => .ok { t with rows := l.map Prod.snd }

/-! ## The comparator library

The comparison functions parse their string arguments with `strconv`
(standard library).  The parsers are modelled from the `strconv`
documentation:
* `parseBoolGo` accepts exactly the thirteen literals `strconv.ParseBool`
  accepts.
* `parseFloatGo` implements the decimal grammar of `strconv.ParseFloat`
  (optional sign, digits with an optional fractional part, an optional
  decimal exponent, and the case-insensitive `inf`/`infinity`/`nan`
  forms).  Hexadecimal floats, digit-group underscores and out-of-range
  handling are elided (no claim exercises them), and parsed magnitudes
  are kept as exact rationals rather than rounded to binary64. -/

/-- Model of `strconv.ParseBool`. -/
def parseBoolGo (s : String) : Option Bool :=
  if s = "1" ∨ s = "t" ∨ s = "T" ∨ s = "TRUE" ∨ s = "true" ∨ s = "True" then
    some true
  else if s = "0" ∨ s = "f" ∨ s = "F" ∨ s = "FALSE" ∨ s = "false" ∨ s = "False" then
    some false
  else none

/-- A parsed floating-point value: NaN, a signed infinity, or a finite
value kept exactly as a scaled decimal integer `m * 10 ^ e`. -/
inductive GoFloat where
  | nan
  | inf (neg : Bool)
  | num (m : Int) (e : Int)
deriving DecidableEq

def pow10 (k : Nat) : Int := Int.ofNat (10 ^ k)

/-- Strict order on parsed values, mirroring `<` on `float64`: NaN is
unordered (every comparison with it is false); finite values are compared
after bringing both to the smaller decimal scale. -/
def goFloatLt : GoFloat → GoFloat → Bool
  | .nan, _ => false
  | _, .nan => false
  | .inf true, .inf true => false
  | .inf true, _ => true
  | .inf false, _ => false
  | .num _ _, .inf true => false
  | .num _ _, .inf false => true
  | .num m1 e1, .num m2 e2 =>
    let d := min e1 e2
    decide (m1 * pow10 (e1 - d).toNat < m2 * pow10 (e2 - d).toNat)

def isDigit (c : Char) : Bool := '0' ≤ c ∧ c ≤ '9'

def digitsToNat (ds : List Char) : Nat :=
  ds.foldl (fun acc c => acc * 10 + (c.toNat - '0'.toNat)) 0

/-- Split a leading run of decimal digits. -/
def takeDigits : List Char → List Char × List Char
  | [] => ([], [])
  | c :: cs =>
    if isDigit c then
      let (d, r) := takeDigits cs
      (c :: d, r)
    else ([], c :: cs)

def lowerStr (l : List Char) : List Char := l.map Char.toLower

/-- Parse the part of a `ParseFloat` input after the optional sign. -/
def parseFloatBody (neg : Bool) (l : List Char) : Option GoFloat :=
  if lowerStr l = "inf".data ∨ lowerStr l = "infinity".data then
    some (.inf neg)
  else if lowerStr l = "nan".data then
    some .nan
  else
    let (ip, rest1) := takeDigits l
    let (fp, rest2) :=
      match rest1 with
      | '.' :: cs => takeDigits cs
      | _ => ([], rest1)
    let hasDot : Bool := match rest1 with | '.' :: _ => true | _ => false
    if ip = [] ∧ fp = [] then none
    else
      -- the literal reads `ip.fp`, i.e. `digits(ip ++ fp) * 10 ^ (-|fp|)`
      let mant : Int := Int.ofNat (digitsToNat (ip ++ fp))
      let mant := if neg then -mant else mant
      let rest3 := if hasDot then rest2 else rest1
      match rest3 with
      | [] => some (.num mant (-(fp.length : Int)))
      | e :: cs =>
        if e = 'e' ∨ e = 'E' then
          let (eneg, cs') :=
            match cs with
            | '+' :: cs'' => (false, cs'')
            | '-' :: cs'' => (true, cs'')
            | _ => (false, cs)
          let (ed, rest4) := takeDigits cs'
          if ed = [] ∨ rest4 ≠ [] then none
          else
            let ex : Int :=
              if eneg then -(digitsToNat ed : Int) else (digitsToNat ed : Int)
            some (.num mant (ex - (fp.length : Int)))
        else none

/-- Model of `strconv.ParseFloat(s, 64)` (see the section comment for the
elided corners). -/
def parseFloatGo (s : String) : Option GoFloat :=
  match s.data with
  | [] => none
  | '+' :: cs => parseFloatBody false cs
  | '-' :: cs => parseFloatBody true cs
  | cs => parseFloatBody false cs

/-- Strict lexicographic order on codepoint sequences.  Go's `<` on
strings is byte-wise lexicographic order, which on valid UTF-8 coincides
with this codepoint-wise order. -/
def listLtCh : List Char → List Char → Bool
  | [], [] => false
  | [], _ :: _ => true
  | _ :: _, [] => false
  | x :: xs, y :: ys =>
    if x.toNat < y.toNat then true
    else if y.toNat < x.toNat then false
    else listLtCh xs ys

/-- Model of Go's `<` on strings. -/
def goStringLt (a b : String) : Bool := listLtCh a.data b.data

/-- Model of `StringComparison`. -/
def StringComparison (a b : String) : Int :=
  if goStringLt a b then -1 else if goStringLt b a then 1 else 0

/-- Model of `BoolComparison`: unparsable on both sides is a tie, an
unparsable left sorts before, an unparsable right sorts after; otherwise
`false < true`. -/
def BoolComparison (a b : String) : Int :=
  match parseBoolGo a, parseBoolGo b with
  | none, none => 0
  | none, some _ => -1
  | some _, none => 1
  | some x, some y =>
    if x = y then 0 else if ¬x ∧ y then -1 else 1

/-- Model of `NumericalComparison`: unparsable on both sides is a tie, an
unparsable left sorts after, an unparsable right sorts before; otherwise
compare the parsed values. -/
def NumericalComparison (a b : String) : Int :=
  match parseFloatGo a, parseFloatGo b with
  | none, none => 0
  | none, some _ => 1
  | some _, none => -1
  | some x, some y =>
    if goFloatLt x y then -1 else if goFloatLt y x then 1 else 0

/-- Model of `parseCurrencyString`: strip every `$` and `,`, then parse. -/
def parseCurrencyString (s : String) : Option GoFloat :=
  parseFloatGo ⟨s.data.filter (fun c => c ≠ '$' ∧ c ≠ ',')⟩

/-- Model of `CurrencyComparison` (same unparsable policy as
`NumericalComparison`). -/
def CurrencyComparison (a b : String) : Int :=
  match parseCurrencyString a, parseCurrencyString b with
  | none, none => 0
  | none, some _ => 1
  | some _, none => -1
  | some x, some y =>
    if goFloatLt x y then -1 else if goFloatLt y x then 1 else 0

/-- Model of `parsePercentString`: strip every `%`, then parse. -/
def parsePercentString (s : String) : Option GoFloat :=
  parseFloatGo ⟨s.data.filter (fun c => c ≠ '%')⟩

/-- Model of `PercentComparison` (same unparsable policy as
`NumericalComparison`). -/
def PercentComparison (a b : String) : Int :=
  match parsePercentString a, parsePercentString b with
  | none, none => 0
  | none, some _ => 1
  | some _, none => -1
  | some x, some y =>
    if goFloatLt x y then -1 else if goFloatLt y x then 1 else 0

/-! ## Transpose -/

/-- Model of `Transpose`.  The accesses `t.header[0]` and `t.rows[i][0]`
are unguarded in the source, so an empty header or an empty row is a panic
(`none`).  The body loop guards its accesses with `i+1 < len(row)`.  The
new table shares the configuration; its `widths` field is the zero value. -/
def Transpose (t : GoTable) : Option GoTable := do
  let h0 ← t.header.get? 0
  let firsts ← t.rows.mapM (fun r => r.get? 0)
  let newRows := (List.range (t.header.length - 1)).map (fun i =>
    t.header.getD (i + 1) "" ::
      t.rows.map (fun row =>
        if i + 1 < row.length then row.getD (i + 1) "" else ""))
  pure { t with header := h0 :: firsts, rows := newRows, widths := [] }

/-! ## JSON export

`ExportJSON` builds a `map[string]map[string]string` and serialises it with
`encoding/json.Marshal`.  The maps are modelled as association lists with
Go-map assignment semantics (`mapSet` replaces an existing key in place);
`Marshal` is modelled from its documentation: map keys are sorted (for
string keys, byte-wise lexicographic order, which on UTF-8 is codepoint
order), strings are quoted with the default HTML-escaping encoder, and the
object is written without added line breaks. -/

/-- Go map assignment `m[k] = v` on an association list. -/
def mapSet {β : Type} (k : String) (v : β) :
    List (String × β) → List (String × β)
  | [] => [(k, v)]
  | (k', v') :: rest =>
    if k = k' then (k, v) :: rest else (k', v') :: mapSet k v rest

/-- The inner `rowMap` loop of `ExportJSON`: map each header name to the
row's cell at that header position, empty string when the row is shorter. -/
def buildRowMap (header row : List String) : List (String × String) :=
  header.enum.foldl
    (fun m p => mapSet p.2 (if p.1 < row.length then row.getD p.1 "" else "") m)
    []

/-- The row loop of `ExportJSON`: walk the rows in order, failing on the
first row missing the key cell (`keyColumn >= len(row)`), otherwise
assigning `data[row[keyColumn]] = rowMap`. -/
def buildJSONData (header : List String) (kc : Nat)
    (data : List (String × List (String × String))) :
    List (List String) → Option (List (String × List (String × String)))
  | [] => some data
  | row :: rest =>
    if row.length ≤ kc then none
    else
      buildJSONData header kc
        (mapSet (row.getD kc "") (buildRowMap header row) data) rest

/-- Insert an entry into a key-sorted association list (used to model the
key sorting `encoding/json.Marshal` performs on maps). -/
def insByKey {β : Type} (x : String × β) :
    List (String × β) → List (String × β)
  | [] => [x]
  | y :: ys => if goStringLt x.1 y.1 then x :: y :: ys else y :: insByKey x ys

/-- Sort an association list by key. -/
def sortByKey {β : Type} (l : List (String × β)) : List (String × β) :=
  l.foldr insByKey []

def hexDigit (n : Nat) : Char :=
  if n < 10 then Char.ofNat ('0'.toNat + n) else Char.ofNat ('a'.toNat + n - 10)

/-- The string escaping of `encoding/json`'s default encoder: quote,
backslash, the three HTML-significant ASCII characters, control characters
(with shorthand for `\n`, `\r`, `\t`), and the two Unicode line
separators. -/
def jsonEscapeChar (c : Char) : List Char :=
  if c = '"' then ['\\', '"']
  else if c = '\\' then ['\\', '\\']
  else if c = '\n' then ['\\', 'n']
  else if c = '\r' then ['\\', 'r']
  else if c = '\t' then ['\\', 't']
  else if c.toNat < 0x20 then
    ['\\', 'u', '0', '0', hexDigit (c.toNat / 16), hexDigit (c.toNat % 16)]
  else if c = '<' then ['\\', 'u', '0', '0', '3', 'c']
  else if c = '>' then ['\\', 'u', '0', '0', '3', 'e']
  else if c = '&' then ['\\', 'u', '0', '0', '2', '6']
  else if c.toNat = 0x2028 then ['\\', 'u', '2', '0', '2', '8']
  else if c.toNat = 0x2029 then ['\\', 'u', '2', '0', '2', '9']
  else [c]

/-- A JSON string literal for `s`. -/
def jsonQuote (s : String) : String :=
  "\"" ++ (⟨s.data.flatMap jsonEscapeChar⟩ : String) ++ "\""

/-- Marshal one inner `map[string]string`. -/
def marshalInner (m : List (String × String)) : String :=
  "\x7b" ++
    String.intercalate ","
      ((sortByKey m).map (fun p => jsonQuote p.1 ++ ":" ++ jsonQuote p.2)) ++
    "\x7d"

/-- Marshal the outer `map[string]map[string]string`. -/
def marshalOuter (m : List (String × List (String × String))) : String :=
  "\x7b" ++
    String.intercalate ","
      ((sortByKey m).map (fun p => jsonQuote p.1 ++ ":" ++ marshalInner p.2)) ++
    "\x7d"

/-- Outcome of `ExportJSON`: the invalid-key-column validation error, the
short-row error, or the serialised object as written to the writer. -/
inductive JSONOutcome where
  | errInvalidIndex
  | errShortRow
  | ok (s : String)
deriving DecidableEq

/-- Model of `ExportJSON`. -/
def ExportJSON (t : GoTable) (keyColumn : Int) : JSONOutcome :=
  if keyColumn < 0 ∨ (t.header.length : Int) ≤ keyColumn then .errInvalidIndex
  else
    match buildJSONData t.header keyColumn.toNat [] t.rows with
    | none => .errShortRow
    | some data => .ok (marshalOuter data)

/-! ## Auxiliary notions used by the theorems -/

/-- Go map lookup `m[k]` on the association-list model. -/
def alookup {β : Type} (k : String) : List (String × β) → Option β
  | [] => none
  | (k', v) :: rest => if k = k' then some v else alookup k rest

/-- In the reversed prefix representation used by the sort model, `a` was
placed before `b` (so `b` sits closer to the head of the reversed list and
`a` strictly deeper). -/
def RevBefore {α : Type} (R : List α) (a b : α) : Prop :=
  ∃ p q, R = p ++ b :: q ∧ a ∈ q

/-! ## Lemmas about the width calculation -/

theorem get?_eq_some_getD {α : Type} (l : List α) (j : Nat) (d : α)
    (h : j < l.length) : l.get? j = some (l.getD j d) := by
  simp [List.get?_eq_getElem?, List.getD_eq_getElem?_getD, List.getElem?_eq_getElem h]

theorem getD_of_get?_eq {α : Type} {l : List α} {j : Nat} {v : α} (d : α)
    (h : l.get? j = some v) : l.getD j d = v := by
  rw [List.get?_eq_getElem?] at h
  simp [List.getD_eq_getElem?_getD, h]

theorem updateWidths_nil_row (wf : String → Nat) (p : Nat) :
    ∀ ws : List Nat, updateWidths wf p ws [] = ws
  | [] => rfl
  | _ :: _ => rfl

theorem updateWidths_length (wf : String → Nat) (p : Nat) :
    ∀ (ws : List Nat) (row : List String),
      (updateWidths wf p ws row).length = ws.length
  | ws, [] => by rw [updateWidths_nil_row]
  | [], _ :: _ => rfl
  | _ :: ws, _ :: vs => by
    simp [updateWidths, updateWidths_length wf p ws vs]

theorem updateWidths_get? (wf : String → Nat) (p : Nat) :
    ∀ (ws : List Nat) (row : List String) (j : Nat), j < ws.length →
      (updateWidths wf p ws row).get? j =
        some (if j < row.length then
          Nat.max (ws.getD j 0) (wf (row.getD j "") + p)
        else ws.getD j 0)
  | [], _, _, hj => by simp at hj
  | w :: ws, [], j, hj => by
    rw [updateWidths_nil_row]
    simpa using get?_eq_some_getD (w :: ws) j 0 hj
  | w :: ws, v :: vs, 0, hj => by simp [updateWidths]
  | w :: ws, v :: vs, j + 1, hj => by
    have := updateWidths_get? wf p ws vs j (by simpa using hj)
    simpa [updateWidths] using this

theorem foldl_updateWidths_length (wf : String → Nat) (p : Nat) :
    ∀ (rows : List (List String)) (ws : List Nat),
      (rows.foldl (updateWidths wf p) ws).length = ws.length
  | [], _ => rfl
  | r :: rest, ws => by
    simp [List.foldl_cons, foldl_updateWidths_length wf p rest, updateWidths_length]

theorem foldl_updateWidths_get? (wf : String → Nat) (p : Nat) :
    ∀ (rows : List (List String)) (ws : List Nat) (j : Nat), j < ws.length →
      (rows.foldl (updateWidths wf p) ws).get? j =
        some (rows.foldl
          (fun acc r =>
            if j < r.length then Nat.max acc (wf (r.getD j "") + p) else acc)
          (ws.getD j 0))
  | [], ws, j, hj => by
    simpa using get?_eq_some_getD ws j 0 hj
  | r :: rest, ws, j, hj => by
    rw [List.foldl_cons, List.foldl_cons]
    have hlen : j < (updateWidths wf p ws r).length := by
      rw [updateWidths_length]; exact hj
    have hmid := updateWidths_get? wf p ws r j hj
    have hmidD := getD_of_get?_eq 0 hmid
    rw [foldl_updateWidths_get? wf p rest _ j hlen, hmidD]

theorem nmax_zero (a : Nat) : Nat.max 0 a = a := by
  simp [Nat.max_def]

theorem nmax_add_right (a b p : Nat) : Nat.max (a + p) (b + p) = Nat.max a b + p := by
  simp [Nat.max_def]; split_ifs <;> omega

theorem nmax_comm (a b : Nat) : Nat.max a b = Nat.max b a := by
  simp [Nat.max_def]; split_ifs <;> omega

theorem nmax_assoc (a b c : Nat) :
    Nat.max (Nat.max a b) c = Nat.max a (Nat.max b c) := by
  simp [Nat.max_def]; split_ifs <;> omega

theorem nmax_left_comm (a b c : Nat) :
    Nat.max a (Nat.max b c) = Nat.max b (Nat.max a c) := by
  simp [Nat.max_def]; split_ifs <;> omega

theorem foldl_colmax (g : List String → Nat) (cnd : List String → Prop)
    [DecidablePred cnd] (p : Nat) :
    ∀ (rows : List (List String)) (a : Nat),
      rows.foldl (fun acc r => if cnd r then Nat.max acc (g r + p) else acc) a =
        Nat.max a
          ((rows.map (fun r => if cnd r then g r + p else 0)).foldr Nat.max 0)
  | [], a => by simp [Nat.max_def]
  | r :: rest, a => by
    rw [List.foldl_cons, foldl_colmax g cnd p rest, List.map_cons, List.foldr_cons]
    by_cases h : cnd r
    · rw [if_pos h, if_pos h]
      exact nmax_assoc _ _ _
    · rw [if_neg h, if_neg h, nmax_zero]

theorem colmax_shift (p : Nat) (h : Nat)
    (rows : List (List String)) (cnd : List String → Prop) [DecidablePred cnd]
    (g : List String → Nat) :
    Nat.max ((rows.map (fun r => if cnd r then g r + p else 0)).foldr Nat.max 0)
        (h + p) =
      p + Nat.max h ((rows.map (fun r => if cnd r then g r else 0)).foldr Nat.max 0) := by
  induction rows with
  | nil =>
    simp only [List.map_nil, List.foldr_nil]
    simp [Nat.max_def]; omega
  | cons r rest ih =>
    simp only [List.map_cons, List.foldr_cons]
    by_cases hc : cnd r
    · rw [if_pos hc, if_pos hc]
      calc Nat.max (Nat.max (g r + p) _) (h + p)
          = Nat.max (g r + p) (Nat.max _ (h + p)) := nmax_assoc _ _ _
        _ = Nat.max (g r + p)
              (p + Nat.max h ((rest.map (fun r => if cnd r then g r else 0)).foldr Nat.max 0)) := by
            rw [ih]
        _ = Nat.max (g r + p)
              (Nat.max h ((rest.map (fun r => if cnd r then g r else 0)).foldr Nat.max 0) + p) := by
            rw [Nat.add_comm p]
        _ = Nat.max (g r)
              (Nat.max h ((rest.map (fun r => if cnd r then g r else 0)).foldr Nat.max 0)) + p :=
            nmax_add_right _ _ _
        _ = p + Nat.max h
              (Nat.max (g r) ((rest.map (fun r => if cnd r then g r else 0)).foldr Nat.max 0)) := by
            rw [nmax_left_comm, Nat.add_comm]
    · rw [if_neg hc, if_neg hc, nmax_zero, nmax_zero, ih]

/-- The column-width formula: each computed width is the padding plus the
largest metric among the header cell and the present data cells of that
column (absent cells of short rows contributing nothing beyond zero). -/
theorem calculateWidths_get? (t : GoTable) (j : Nat) (hj : j < t.header.length) :
    (calculateWidths t).get? j =
      some (t.Padding + Nat.max (t.Width (t.header.getD j ""))
        ((t.rows.map (fun r =>
            if j < r.length then t.Width (r.getD j "") else 0)).foldr Nat.max 0)) := by
  unfold calculateWidths
  set ws0 : List Nat := List.replicate t.header.length 0 with hws0
  have hlen0 : (t.rows.foldl (updateWidths t.Width t.Padding) ws0).length =
      t.header.length := by
    rw [foldl_updateWidths_length]; simp [hws0]
  have hj' : j < (t.rows.foldl (updateWidths t.Width t.Padding) ws0).length := by
    omega
  rw [updateWidths_get? _ _ _ _ j hj', if_pos hj]
  have hfold := foldl_updateWidths_get? t.Width t.Padding t.rows ws0 j
    (by simp [hws0]; omega)
  have hfoldD := getD_of_get?_eq 0 hfold
  rw [hfoldD]
  have hws0D : ws0.getD j 0 = 0 := by simp [hws0]
  rw [hws0D, foldl_colmax (fun r => t.Width (r.getD j "")) (fun r => j < r.length)]
  rw [nmax_zero, colmax_shift]

/-! ## Lemmas about the row store -/

theorem foldl_maxNL (g : String → Nat) :
    ∀ (l : List String) (a : Nat),
      l.foldl (fun acc v => Nat.max (g v) acc) a =
        Nat.max a ((l.map g).foldr Nat.max 0)
  | [], a => by simp [Nat.max_def]
  | v :: rest, a => by
    rw [List.foldl_cons, foldl_maxNL g rest, List.map_cons, List.foldr_cons,
      nmax_comm (g v) a, nmax_assoc]

/-- The `maxNumNewlines` loop computes the maximum line-break count over
the values. -/
theorem maxNumNewlines_eq (vals : List String) :
    maxNumNewlines vals = (vals.map goCountNL).foldr Nat.max 0 := by
  unfold maxNumNewlines
  rw [foldl_maxNL, nmax_zero]

theorem buildSplitRow_length (C : Nat) (vals : List String) (i : Nat) :
    (buildSplitRow C vals i).length = C := by
  simp [buildSplitRow]

theorem buildSplitRow_get? (C : Nat) (vals : List String) (i j : Nat)
    (hj : j < C) :
    (buildSplitRow C vals i).get? j =
      some (if j < vals.length
        then safeOffset (goSplitLines (vals.getD j "")) i else "") := by
  simp [buildSplitRow, List.get?_eq_getElem?, List.getElem?_map,
    List.getElem?_range hj]

theorem safeOffset_eq (l : List String) (i : Nat) :
    safeOffset l i = if i < l.length then l.getD i "" else "" := by
  unfold safeOffset
  by_cases h : i < l.length
  · rw [if_neg (by omega), if_pos h]
  · rw [if_pos (by omega), if_neg h]

/-! ## Lemmas about the stable sort -/

/-- `insRev` inserts its element at one position of the reversed prefix,
leaving every other element in place, and every element it moved past
compared strictly `less`. -/
theorem insRev_split {α : Type} (less : α → α → Option Bool) (x : α) :
    ∀ (R R' : List α), insRev less x R = some R' →
      ∃ p q, R = p ++ q ∧ R' = p ++ x :: q ∧ ∀ w ∈ p, less x w = some true
  | [], R', h => by
    refine ⟨[], [], rfl, ?_, by simp⟩
    simpa [insRev] using h.symm
  | w :: ws, R', h => by
    cases hb : less x w with
    | none => simp [insRev, hb] at h
    | some b =>
      cases b with
      | false =>
        simp only [insRev, hb, Option.bind_some] at h
        refine ⟨[], w :: ws, rfl, ?_, by simp⟩
        simpa [insRev, hb] using h.symm
      | true =>
        cases hr : insRev less x ws with
        | none => simp [insRev, hb, hr] at h
        | some r =>
          have hR' : R' = w :: r := by
            have := h
            simp [insRev, hb, hr] at this
            exact this.symm
          obtain ⟨p, q, hws, hr', hp⟩ := insRev_split less x ws r hr
          refine ⟨w :: p, q, by simp [hws], by simp [hR', hr'], ?_⟩
          intro z hz
          rcases List.mem_cons.mp hz with hz | hz
          · subst hz; exact hb
          · exact hp z hz

theorem revBefore_of_insert {α : Type} {p q P Q : List α} {x a b : α}
    (hR : p ++ b :: q = P ++ Q) (ha : a ∈ q) :
    RevBefore (P ++ x :: Q) a b := by
  rcases List.append_eq_append_iff.mp hR with ⟨m, hP, hQ⟩ | ⟨m, hp, hQ⟩
  · cases m with
    | nil =>
      subst hP
      simp only [List.nil_append] at hQ
      refine ⟨p ++ [x], q, ?_, ha⟩
      simp [← hQ]
    | cons z m' =>
      rw [List.cons_append] at hQ
      have hz : z = b := ((List.cons.injEq _ _ _ _ ▸ hQ).1).symm
      have hq : q = m' ++ Q := (List.cons.injEq _ _ _ _ ▸ hQ).2
      subst hz hP
      refine ⟨p, m' ++ x :: Q, by simp, ?_⟩
      rw [hq] at ha
      rcases List.mem_append.mp ha with h | h
      · exact List.mem_append.mpr (Or.inl h)
      · exact List.mem_append.mpr (Or.inr (List.mem_cons_of_mem _ h))
  · subst hp hQ
    exact ⟨P ++ x :: m, q, by simp, ha⟩

theorem insRev_preserves {α : Type} {less : α → α → Option Bool} {x a b : α}
    {R R' : List α} (h : insRev less x R = some R') (hab : RevBefore R a b) :
    RevBefore R' a b := by
  obtain ⟨P, Q, hPQ, hR', _⟩ := insRev_split less x R R' h
  obtain ⟨p, q, hR, ha⟩ := hab
  rw [hR']
  exact revBefore_of_insert (hR.symm.trans hPQ) ha

theorem insRev_mem {α : Type} {less : α → α → Option Bool} {x y : α}
    {R R' : List α} (h : insRev less x R = some R') (hy : y ∈ R) : y ∈ R' := by
  obtain ⟨p, q, hR, hR', _⟩ := insRev_split less x R R' h
  subst hR hR'
  rcases List.mem_append.mp hy with h' | h'
  · exact List.mem_append.mpr (Or.inl h')
  · exact List.mem_append.mpr (Or.inr (List.mem_cons_of_mem _ h'))

theorem insRev_self_mem {α : Type} {less : α → α → Option Bool} {x : α}
    {R R' : List α} (h : insRev less x R = some R') : x ∈ R' := by
  obtain ⟨p, q, _, hR', _⟩ := insRev_split less x R R' h
  subst hR'
  exact List.mem_append.mpr (Or.inr (List.mem_cons_self _ _))

/-- Inserting `b` after `a` cannot move `b` past `a` when `b` is not
strictly less than `a`. -/
theorem insRev_establishes {α : Type} {less : α → α → Option Bool} {a b : α}
    {R R' : List α} (h : insRev less b R = some R') (ha : a ∈ R)
    (hba : less b a = some false) : RevBefore R' a b := by
  obtain ⟨p, q, hR, hR', hp⟩ := insRev_split less b R R' h
  subst hR hR'
  rcases List.mem_append.mp ha with h' | h'
  · have := hp a h'
    rw [hba] at this
    exact absurd this (by simp)
  · exact ⟨p, q, rfl, h'⟩

theorem insRev_total {α : Type} (less : α → α → Option Bool) (x : α) :
    ∀ (R : List α), (∀ w ∈ R, less x w ≠ none) →
      ∃ R', insRev less x R = some R'
  | [], _ => ⟨[x], rfl⟩
  | w :: ws, htot => by
    cases hb : less x w with
    | none => exact absurd hb (htot w (List.mem_cons_self _ _))
    | some b =>
      cases b with
      | false => exact ⟨x :: w :: ws, by simp [insRev, hb]⟩
      | true =>
        obtain ⟨r, hr⟩ := insRev_total less x ws
          (fun w' hw' => htot w' (List.mem_cons_of_mem _ hw'))
        exact ⟨w :: r, by simp [insRev, hb, hr]⟩

theorem foldlM_insRev_mem {α : Type} (less : α → α → Option Bool) {y : α} :
    ∀ (xs acc acc' : List α),
      List.foldlM (fun acc x => insRev less x acc) acc xs = some acc' →
      y ∈ acc → y ∈ acc'
  | [], acc, acc', h, hy => by
    simp only [List.foldlM_nil] at h
    cases h; exact hy
  | x :: xs, acc, acc', h, hy => by
    rw [List.foldlM_cons] at h
    cases h1 : insRev less x acc with
    | none => rw [h1] at h; simp at h
    | some acc1 =>
      rw [h1] at h
      simp only [Option.bind_eq_bind, Option.some_bind] at h
      exact foldlM_insRev_mem less xs acc1 acc' h (insRev_mem h1 hy)

theorem foldlM_insRev_preserves {α : Type} (less : α → α → Option Bool)
    {a b : α} :
    ∀ (xs acc acc' : List α),
      List.foldlM (fun acc x => insRev less x acc) acc xs = some acc' →
      RevBefore acc a b → RevBefore acc' a b
  | [], acc, acc', h, hab => by
    simp only [List.foldlM_nil] at h
    cases h; exact hab
  | x :: xs, acc, acc', h, hab => by
    rw [List.foldlM_cons] at h
    cases h1 : insRev less x acc with
    | none => rw [h1] at h; simp at h
    | some acc1 =>
      rw [h1] at h
      simp only [Option.bind_eq_bind, Option.some_bind] at h
      exact foldlM_insRev_preserves less xs acc1 acc' h (insRev_preserves h1 hab)

theorem foldlM_insRev_total {α : Type} (less : α → α → Option Bool)
    (S : List α) (htot : ∀ x ∈ S, ∀ y ∈ S, less x y ≠ none) :
    ∀ (xs acc : List α), (∀ x ∈ xs, x ∈ S) → (∀ y ∈ acc, y ∈ S) →
      ∃ acc', List.foldlM (fun acc x => insRev less x acc) acc xs = some acc'
  | [], acc, _, _ => ⟨acc, by simp⟩
  | x :: xs, acc, hxs, hacc => by
    have hx : x ∈ S := hxs x (List.mem_cons_self _ _)
    obtain ⟨acc1, h1⟩ := insRev_total less x acc
      (fun w hw => htot x hx w (hacc w hw))
    have hacc1 : ∀ y ∈ acc1, y ∈ S := by
      intro y hy
      obtain ⟨p, q, hacc', hacc1', _⟩ := insRev_split less x acc acc1 h1
      subst hacc' hacc1'
      rcases List.mem_append.mp hy with h' | h'
      · exact hacc y (List.mem_append.mpr (Or.inl h'))
      · rcases List.mem_cons.mp h' with h'' | h''
        · subst h''; exact hx
        · exact hacc y (List.mem_append.mpr (Or.inr h''))
    obtain ⟨acc', h'⟩ := foldlM_insRev_total less S htot xs acc1
      (fun z hz => hxs z (List.mem_cons_of_mem _ hz)) hacc1
    exact ⟨acc', by rw [List.foldlM_cons, h1]; simpa using h'⟩

/-- Stability of the modelled `sort.SliceStable`: an element `b` appearing
after `a` in the input and not strictly less than `a` ends up after `a` in
the (reversed) result, for an arbitrary `less` predicate. -/
theorem sortRevM_stable {α : Type} (less : α → α → Option Bool)
    (u w v : List α) (a b : α) (hba : less b a = some false)
    (R' : List α) (h : sortRevM less (u ++ a :: (w ++ b :: v)) = some R') :
    RevBefore R' a b := by
  unfold sortRevM at h
  simp only [List.foldlM_append, List.foldlM_cons, Option.bind_eq_bind] at h
  cases h0 : List.foldlM (fun acc x => insRev less x acc) [] u with
  | none => rw [h0] at h; simp at h
  | some acc0 =>
    rw [h0] at h
    simp only [Option.some_bind] at h
    cases h1 : insRev less a acc0 with
    | none => rw [h1] at h; simp at h
    | some acc1 =>
      rw [h1] at h
      simp only [Option.some_bind] at h
      cases h2 : List.foldlM (fun acc x => insRev less x acc) acc1 w with
      | none => rw [h2] at h; simp at h
      | some acc2 =>
        rw [h2] at h
        simp only [Option.some_bind] at h
        cases h3 : insRev less b acc2 with
        | none => rw [h3] at h; simp at h
        | some acc3 =>
          rw [h3] at h
          simp only [Option.some_bind] at h
          have ha1 : a ∈ acc1 := insRev_self_mem h1
          have ha2 : a ∈ acc2 := foldlM_insRev_mem less w acc1 acc2 h2 ha1
          have hb3 : RevBefore acc3 a b := insRev_establishes h3 ha2 hba
          exact foldlM_insRev_preserves less v acc3 R' h hb3

/-- A `RevBefore` fact about the reversed accumulator is an
`a`-before-`b` decomposition of the final sorted list. -/
theorem revBefore_reverse {α : Type} {R : List α} {a b : α}
    (h : RevBefore R a b) :
    ∃ s t u, R.reverse = s ++ a :: (t ++ b :: u) := by
  obtain ⟨p, q, hR, ha⟩ := h
  subst hR
  obtain ⟨s1, s2, hq⟩ := List.append_of_mem (List.mem_reverse.mpr ha)
  refine ⟨s1, s2, p.reverse, ?_⟩
  rw [List.reverse_append, List.reverse_cons, hq]
  simp

theorem exists_split_of_get? {α : Type} :
    ∀ {L : List α} {i j : Nat} {x y : α},
      i < j → L.get? i = some x → L.get? j = some y →
      ∃ u w v, L = u ++ x :: (w ++ y :: v)
  | [], i, j, x, y, _, hx, _ => by simp at hx
  | z :: L', 0, j, x, y, hij, hx, hy => by
    simp only [List.get?_cons_zero, Option.some.injEq] at hx
    subst hx
    obtain ⟨j', rfl⟩ : ∃ j', j = j' + 1 := ⟨j - 1, by omega⟩
    rw [List.get?_cons_succ] at hy
    have hmem : y ∈ L' := List.get?_mem hy
    obtain ⟨w, v, hwv⟩ := List.append_of_mem hmem
    exact ⟨[], w, v, by simp [hwv]⟩
  | z :: L', i' + 1, j, x, y, hij, hx, hy => by
    obtain ⟨j', rfl⟩ : ∃ j', j = j' + 1 := ⟨j - 1, by omega⟩
    rw [List.get?_cons_succ] at hx hy
    obtain ⟨u, w, v, hL⟩ := exists_split_of_get? (by omega) hx hy
    exact ⟨z :: u, w, v, by simp [hL]⟩

theorem enum_get? {α : Type} {L : List α} {i : Nat} {x : α}
    (h : L.get? i = some x) : L.enum.get? i = some (i, x) := by
  rw [List.get?_eq_getElem?] at h ⊢
  rw [List.getElem?_enum, h]
  rfl

/-- Elimination for a successful `SortBy`: expose the sorted enumerated
sequence. -/
theorem SortBy_ok_elim {t t' : GoTable} {n : Int}
    {cmp : String → String → Int} (h : SortBy t n cmp = .ok t') :
    ∃ es, sliceStable (fun p q => rowLessM n.toNat cmp p.2 q.2) t.rows.enum
        = some es ∧ t' = { t with rows := es.map Prod.snd } := by
  unfold SortBy at h
  split at h
  · exact absurd h (by simp)
  · cases hs : sliceStable (fun p q => rowLessM n.toNat cmp p.2 q.2) t.rows.enum with
    | none => rw [hs] at h; exact absurd h (by simp)
    | some es =>
      rw [hs] at h
      simp only [SortOutcome.ok.injEq] at h
      exact ⟨es, rfl, h.symm⟩

theorem SortByMultiple_ok_elim {t t' : GoTable} {criteria : List SortCriterion}
    (h : SortByMultiple t criteria = .ok t') :
    ∃ es, sliceStable (fun p q => multiLessM criteria p.2 q.2) t.rows.enum
        = some es ∧ t' = { t with rows := es.map Prod.snd } := by
  unfold SortByMultiple at h
  split at h
  · exact absurd h (by simp)
  · cases hs : sliceStable (fun p q => multiLessM criteria p.2 q.2) t.rows.enum with
    | none => rw [hs] at h; exact absurd h (by simp)
    | some es =>
      rw [hs] at h
      simp only [SortOutcome.ok.injEq] at h
      exact ⟨es, rfl, h.symm⟩

/-- Ties on every criterion yield a not-less verdict. -/
theorem multiLessM_tie {a b : List String} :
    ∀ {criteria : List SortCriterion},
      (∀ c ∈ criteria, ∃ x y, a.get? c.ColumnIndex.toNat = some x ∧
        b.get? c.ColumnIndex.toNat = some y ∧ c.Compare x y = 0) →
      multiLessM criteria a b = some false
  | [], _ => rfl
  | c :: rest, hc => by
    obtain ⟨x, y, hx, hy, hxy⟩ := hc c (List.mem_cons_self _ _)
    have hrest := multiLessM_tie (fun c' hc' => hc c' (List.mem_cons_of_mem _ hc'))
    rw [List.get?_eq_getElem?] at hx hy
    simp [multiLessM, hx, hy, hxy, hrest]

theorem insRev_constFalse {α : Type} (less : α → α → Option Bool)
    (hfalse : ∀ x y, less x y = some false) (x : α) :
    ∀ acc : List α, insRev less x acc = some (x :: acc)
  | [] => rfl
  | w :: ws => by simp [insRev, hfalse x w]

theorem foldlM_insRev_constFalse {α : Type} (less : α → α → Option Bool)
    (hfalse : ∀ x y, less x y = some false) :
    ∀ (xs acc : List α),
      List.foldlM (fun acc x => insRev less x acc) acc xs
        = some (xs.reverse ++ acc)
  | [], acc => by simp
  | x :: xs, acc => by
    rw [List.foldlM_cons, insRev_constFalse less hfalse]
    simpa using foldlM_insRev_constFalse less hfalse xs (x :: acc)

/-! ## Lemmas about the JSON export -/

theorem alookup_mapSet {β : Type} (k k' : String) (v : β) :
    ∀ m : List (String × β),
      alookup k' (mapSet k v m) = if k' = k then some v else alookup k' m
  | [] => by by_cases h : k' = k <;> simp [mapSet, alookup, h]
  | (k1, v1) :: rest => by
    by_cases h1 : k = k1
    · subst h1
      simp only [mapSet, if_pos rfl]
      by_cases h : k' = k <;> simp [alookup, h]
    · simp only [mapSet, if_neg h1]
      by_cases h2 : k' = k1
      · subst h2
        rw [if_neg (by intro hh; exact h1 hh.symm)]
        simp [alookup]
      · simp only [alookup, if_neg h2]
        exact alookup_mapSet k k' v rest

theorem buildJSONData_none_iff (header : List String) (kc : Nat) :
    ∀ (rows : List (List String)) (data : List (String × List (String × String))),
      buildJSONData header kc data rows = none ↔ ∃ r ∈ rows, r.length ≤ kc
  | [], data => by simp [buildJSONData]
  | row :: rest, data => by
    unfold buildJSONData
    by_cases h : row.length ≤ kc
    · simp only [if_pos h]
      constructor
      · intro _; exact ⟨row, List.mem_cons_self _ _, h⟩
      · intro _; trivial
    · simp only [if_neg h]
      rw [buildJSONData_none_iff header kc rest _]
      constructor
      · rintro ⟨r, hr, hlen⟩
        exact ⟨r, List.mem_cons_of_mem _ hr, hlen⟩
      · rintro ⟨r, hr, hlen⟩
        rcases List.mem_cons.mp hr with rfl | hr'
        · exact absurd hlen h
        · exact ⟨r, hr', hlen⟩

/-- The map built by `ExportJSON` sends a key to the row map of the *last*
stored row whose key cell equals it (Go's silent overwrite on duplicate
keys), and holds no other keys. -/
theorem buildJSONData_alookup (header : List String) (kc : Nat) (k : String) :
    ∀ (rows : List (List String)) (data final : List (String × List (String × String))),
      buildJSONData header kc data rows = some final →
      alookup k final =
        ((rows.reverse.find? (fun r => r.getD kc "" == k)).map
          (buildRowMap header)).orElse (fun _ => alookup k data)
  | [], data, final, h => by
    simp only [buildJSONData, Option.some.injEq] at h
    subst h
    simp
  | row :: rest, data, final, h => by
    unfold buildJSONData at h
    split at h
    · exact absurd h (by simp)
    · have ih := buildJSONData_alookup header kc k rest _ final h
      rw [ih, List.reverse_cons, List.find?_append]
      cases hf : rest.reverse.find? (fun r => r.getD kc "" == k) with
      | some r => simp [hf, Option.or]
      | none =>
        simp only [hf, Option.or]
        rw [alookup_mapSet]
        by_cases hk : k = row.getD kc ""
        · rw [if_pos hk]
          have hb : (row.getD kc "" == k) = true := by simp [hk]
          simp only [List.find?_cons, List.find?_nil, hb]
          simp
        · rw [if_neg hk]
          have hb : (row.getD kc "" == k) = false := by
            simp only [beq_eq_false_iff_ne, ne_eq]
            intro hh; exact hk hh.symm
          simp only [List.find?_cons, List.find?_nil, hb]

/-! ## Lemmas about Transpose -/

theorem mapM_head : ∀ (rows : List (List String)), (∀ r ∈ rows, r ≠ []) →
    rows.mapM (fun r => r.get? 0) = some (rows.map (fun r => r.getD 0 ""))
  | [], _ => rfl
  | r :: rest, h => by
    have hr : r ≠ [] := h r (List.mem_cons_self _ _)
    obtain ⟨x, r', rfl⟩ : ∃ x r', r = x :: r' := by
      cases r with
      | nil => exact absurd rfl hr
      | cons x r' => exact ⟨x, r', rfl⟩
    rw [List.mapM_cons, mapM_head rest (fun r hr' => h r (List.mem_cons_of_mem _ hr'))]
    simp

theorem mem_enumFrom_snd {α : Type} :
    ∀ {l : List α} {n : Nat} {p : Nat × α}, p ∈ l.enumFrom n → p.2 ∈ l
  | [], _, _, h => by simp at h
  | x :: xs, n, p, h => by
    rw [List.enumFrom_cons] at h
    rcases List.mem_cons.mp h with h | h
    · subst h; exact List.mem_cons_self _ _
    · exact List.mem_cons_of_mem _ (mem_enumFrom_snd h)

theorem mem_enum_snd {α : Type} {l : List α} {p : Nat × α}
    (h : p ∈ l.enum) : p.2 ∈ l :=
  mem_enumFrom_snd h

/-! ## The specification claims -/

/-- C1: on each render (`Print`) the computed width of every column `j`
equals `padding + max(metric(header[j]), max over all stored rows r of
metric(r[j]))`, where rows lacking column `j` contribute 0, and the widths
are recomputed from the current header and rows on every render call —
the previously stored `widths` field has no influence on `Print`'s result. -/
theorem c1_render_column_widths (t : GoTable) (_hfit : rowsFit t) :
    (∀ j, j < t.header.length →
      (Print t).1.widths.get? j =
        some (t.Padding + Nat.max (t.Width (t.header.getD j ""))
          ((t.rows.map (fun r =>
            if j < r.length then t.Width (r.getD j "") else 0)).foldr Nat.max 0))) ∧
    ∀ ws, Print { t with widths := ws } = Print t := by
  refine ⟨fun j hj => calculateWidths_get? t j hj, fun ws => rfl⟩

theorem c1_render_column_widths_witness :
    rowsFit (mkTable ["foo", "bar"] [["fizz", "buzz"], ["1"]]) ∧
    (Print (mkTable ["foo", "bar"] [["fizz", "buzz"], ["1"]])).1.widths.get? 0
      = some 6 :=
  ⟨by unfold rowsFit; decide,
    ((c1_render_column_widths (mkTable ["foo", "bar"] [["fizz", "buzz"], ["1"]])
      (by unfold rowsFit; decide)).1 0 (by decide)).trans (by decide)⟩

/-- C9: calling the render operation (`Print`) twice with no mutation in
between writes byte-identical output both times (the only field `Print`
writes is `widths`, which it recomputes itself). -/
theorem c9_print_idempotent (t : GoTable) :
    (Print (Print t).1).2 = (Print t).2 := rfl

/-- C10: `SortByMultiple` with an empty criteria list succeeds and leaves
the row sequence exactly unchanged (the validation loop passes vacuously
and the lexicographic predicate is constantly "not less", under which the
stable sort is the identity permutation). -/
theorem c10_sort_empty_criteria (t : GoTable) :
    SortByMultiple t [] = SortOutcome.ok t := by
  unfold SortByMultiple
  rw [if_neg (by simp)]
  unfold sliceStable sortRevM
  rw [foldlM_insRev_constFalse (fun p q : Nat × List String => multiLessM [] p.2 q.2) (fun _ _ => rfl) t.rows.enum []]
  simp [List.enum_map_snd]

/-- C6: `SortBy` fails with the out-of-range validation error exactly when
the column index violates `0 ≤ n < C`, and `SortByMultiple` exactly when
some criterion's column index does; a failing call returns the error before
any reordering, so the table (in particular its row sequence) is exactly
what it was. -/
theorem c6_sort_validation :
    (∀ (t : GoTable) (n : Int) (cmp : String → String → Int),
      ((∃ e, SortBy t n cmp = .errored e) ↔
        (n < 0 ∨ (t.header.length : Int) ≤ n)) ∧
      ∀ e, SortBy t n cmp = .errored e → e = t) ∧
    (∀ (t : GoTable) (criteria : List SortCriterion),
      ((∃ e, SortByMultiple t criteria = .errored e) ↔
        ∃ c ∈ criteria, c.ColumnIndex < 0 ∨
          (t.header.length : Int) ≤ c.ColumnIndex) ∧
      ∀ e, SortByMultiple t criteria = .errored e → e = t) := by
  constructor
  · intro t n cmp
    constructor
    · constructor
      · rintro ⟨e, he⟩
        unfold SortBy at he
        by_cases hc : n < 0 ∨ (t.header.length : Int) ≤ n
        · exact hc
        · rw [if_neg hc] at he
          cases hs : sliceStable (fun p q => rowLessM n.toNat cmp p.2 q.2)
              t.rows.enum with
          | none => rw [hs] at he; exact absurd he (by simp)
          | some l => rw [hs] at he; exact absurd he (by simp)
      · intro hc
        exact ⟨t, by unfold SortBy; rw [if_pos hc]⟩
    · intro e he
      unfold SortBy at he
      by_cases hc : n < 0 ∨ (t.header.length : Int) ≤ n
      · rw [if_pos hc] at he
        exact (SortOutcome.errored.injEq _ _ ▸ he).symm
      · rw [if_neg hc] at he
        cases hs : sliceStable (fun p q => rowLessM n.toNat cmp p.2 q.2)
            t.rows.enum with
        | none => rw [hs] at he; exact absurd he (by simp)
        | some l => rw [hs] at he; exact absurd he (by simp)
  · intro t criteria
    constructor
    · constructor
      · rintro ⟨e, he⟩
        unfold SortByMultiple at he
        by_cases hc : ∃ c ∈ criteria, c.ColumnIndex < 0 ∨
            (t.header.length : Int) ≤ c.ColumnIndex
        · exact hc
        · rw [if_neg hc] at he
          cases hs : sliceStable (fun p q => multiLessM criteria p.2 q.2)
              t.rows.enum with
          | none => rw [hs] at he; exact absurd he (by simp)
          | some l => rw [hs] at he; exact absurd he (by simp)
      · intro hc
        exact ⟨t, by unfold SortByMultiple; rw [if_pos hc]⟩
    · intro e he
      unfold SortByMultiple at he
      by_cases hc : ∃ c ∈ criteria, c.ColumnIndex < 0 ∨
          (t.header.length : Int) ≤ c.ColumnIndex
      · rw [if_pos hc] at he
        exact (SortOutcome.errored.injEq _ _ ▸ he).symm
      · rw [if_neg hc] at he
        cases hs : sliceStable (fun p q => multiLessM criteria p.2 q.2)
            t.rows.enum with
        | none => rw [hs] at he; exact absurd he (by simp)
        | some l => rw [hs] at he; exact absurd he (by simp)

theorem c6_sort_validation_witness :
    (∃ e, SortBy (mkTable ["h"] [["a"], ["b"]]) 1 StringComparison
      = SortOutcome.errored e) ∧
    ∀ e, SortBy (mkTable ["h"] [["a"], ["b"]]) 1 StringComparison
      = SortOutcome.errored e → e = mkTable ["h"] [["a"], ["b"]] :=
  ⟨((c6_sort_validation.1 (mkTable ["h"] [["a"], ["b"]]) 1
      StringComparison).1).mpr (by decide),
    (c6_sort_validation.1 (mkTable ["h"] [["a"], ["b"]]) 1 StringComparison).2⟩

/-- C2: `SortBy` and `SortByMultiple` are stable: two rows that compare
equal under the active comparator (respectively under every criterion in
the list) keep their relative order.  The sort is modelled on the rows
paired with their original indices; the conclusion exhibits the sorted
indexed sequence, of which the resulting row list is the projection, with
the two rows' indexed copies still in their original relative order. -/
theorem c2_sort_stability :
    (∀ (t t' : GoTable) (n : Int) (cmp : String → String → Int)
       (i j : Nat) (ri rj : List String) (ci cj : String),
      SortBy t n cmp = .ok t' → i < j →
      t.rows.get? i = some ri → t.rows.get? j = some rj →
      ri.get? n.toNat = some ci → rj.get? n.toNat = some cj →
      cmp ci cj = 0 → cmp cj ci = 0 →
      ∃ es, sliceStable (fun p q => rowLessM n.toNat cmp p.2 q.2) t.rows.enum
          = some es ∧
        t'.rows = es.map Prod.snd ∧
        ∃ u w v, es = u ++ (i, ri) :: (w ++ (j, rj) :: v)) ∧
    (∀ (t t' : GoTable) (criteria : List SortCriterion)
       (i j : Nat) (ri rj : List String),
      SortByMultiple t criteria = .ok t' → i < j →
      t.rows.get? i = some ri → t.rows.get? j = some rj →
      (∀ c ∈ criteria, ∃ x y, ri.get? c.ColumnIndex.toNat = some x ∧
        rj.get? c.ColumnIndex.toNat = some y ∧
        c.Compare x y = 0 ∧ c.Compare y x = 0) →
      ∃ es, sliceStable (fun p q => multiLessM criteria p.2 q.2) t.rows.enum
          = some es ∧
        t'.rows = es.map Prod.snd ∧
        ∃ u w v, es = u ++ (i, ri) :: (w ++ (j, rj) :: v)) := by
  constructor
  · intro t t' n cmp i j ri rj ci cj hok hij hri hrj hci hcj hcij hcji
    obtain ⟨es, hes, ht'⟩ := SortBy_ok_elim hok
    refine ⟨es, hes, by rw [ht'], ?_⟩
    unfold sliceStable at hes
    cases hR : sortRevM (fun p q => rowLessM n.toNat cmp p.2 q.2) t.rows.enum with
    | none => rw [hR] at hes; simp at hes
    | some R =>
      rw [hR] at hes
      rw [Option.map_some'] at hes
      have hesR : es = R.reverse := by injection hes.symm
      have hei := enum_get? hri
      have hej := enum_get? hrj
      obtain ⟨u, w, v, henum⟩ := exists_split_of_get? hij hei hej
      have hless : (fun p q : Nat × List String => rowLessM n.toNat cmp p.2 q.2)
          (j, rj) (i, ri) = some false := by
        rw [List.get?_eq_getElem?] at hci hcj
        simp [rowLessM, hci, hcj, hcji]
      have hrb : RevBefore R (i, ri) (j, rj) :=
        sortRevM_stable _ u w v (i, ri) (j, rj) hless R (by rw [← henum]; exact hR)
      obtain ⟨s, tt, uu, hdec⟩ := revBefore_reverse hrb
      exact ⟨s, tt, uu, by rw [hesR, hdec]⟩
  · intro t t' criteria i j ri rj hok hij hri hrj hcrit
    obtain ⟨es, hes, ht'⟩ := SortByMultiple_ok_elim hok
    refine ⟨es, hes, by rw [ht'], ?_⟩
    unfold sliceStable at hes
    cases hR : sortRevM (fun p q => multiLessM criteria p.2 q.2) t.rows.enum with
    | none => rw [hR] at hes; simp at hes
    | some R =>
      rw [hR] at hes
      rw [Option.map_some'] at hes
      have hesR : es = R.reverse := by injection hes.symm
      have hei := enum_get? hri
      have hej := enum_get? hrj
      obtain ⟨u, w, v, henum⟩ := exists_split_of_get? hij hei hej
      have hless : (fun p q : Nat × List String => multiLessM criteria p.2 q.2)
          (j, rj) (i, ri) = some false := by
        refine multiLessM_tie ?_
        intro c hc
        obtain ⟨x, y, hx, hy, _, hyx⟩ := hcrit c hc
        exact ⟨y, x, hy, hx, hyx⟩
      have hrb : RevBefore R (i, ri) (j, rj) :=
        sortRevM_stable _ u w v (i, ri) (j, rj) hless R (by rw [← henum]; exact hR)
      obtain ⟨s, tt, uu, hdec⟩ := revBefore_reverse hrb
      exact ⟨s, tt, uu, by rw [hesR, hdec]⟩

theorem c2_sort_stability_witness :
    SortBy (mkTable ["c1", "c2"] [["b", "1"], ["a", "2"], ["b", "3"]]) 0
        StringComparison
      = SortOutcome.ok (mkTable ["c1", "c2"] [["a", "2"], ["b", "1"], ["b", "3"]]) ∧
    ∃ es, sliceStable
        (fun p q => rowLessM (Int.toNat 0) StringComparison p.2 q.2)
        (mkTable ["c1", "c2"] [["b", "1"], ["a", "2"], ["b", "3"]]).rows.enum
        = some es ∧
      (mkTable ["c1", "c2"] [["a", "2"], ["b", "1"], ["b", "3"]]).rows
        = es.map Prod.snd ∧
      ∃ u w v, es = u ++ (0, ["b", "1"]) :: (w ++ (2, ["b", "3"]) :: v) :=
  ⟨rfl,
    c2_sort_stability.1 (mkTable ["c1", "c2"] [["b", "1"], ["a", "2"], ["b", "3"]])
      (mkTable ["c1", "c2"] [["a", "2"], ["b", "1"], ["b", "3"]]) 0
      StringComparison 0 2 ["b", "1"] ["b", "3"] "b" "b" rfl (by decide)
      rfl rfl rfl rfl (by decide) (by decide)⟩

/-- C3: `AddRow`/`AddRowAsArray` with values `v₁..v_k` appends exactly
`1 + max` line-break count physical rows; appended row `i` has `C` cells,
and for `j < min(k, C)` its cell `j` is line `i` of value `j`'s
split-by-line-break form, or empty when that value has fewer than `i+1`
lines; values beyond the header length are not stored (every appended row
has exactly `C` cells) and cause no error (the operation is total). -/
theorem c3_addRow_multiline (t : GoTable) (vals : List String) :
    (AddRowAsArray t vals).rows.length
        = t.rows.length + (1 + (vals.map goCountNL).foldr Nat.max 0) ∧
    ∀ i, i ≤ (vals.map goCountNL).foldr Nat.max 0 →
      ∃ row, (AddRowAsArray t vals).rows.get? (t.rows.length + i) = some row ∧
        row.length = t.header.length ∧
        ∀ j, j < vals.length → j < t.header.length →
          row.get? j = some (
            if i < (goSplitLines (vals.getD j "")).length
            then (goSplitLines (vals.getD j "")).getD i "" else "") := by
  constructor
  · simp [AddRowAsArray, maxNumNewlines_eq]
    omega
  · intro i hi
    refine ⟨buildSplitRow t.header.length vals i, ?_, buildSplitRow_length _ _ _, ?_⟩
    · unfold AddRowAsArray
      simp only
      rw [List.get?_eq_getElem?, List.getElem?_append_right (by omega)]
      have : t.rows.length + i - t.rows.length = i := by omega
      rw [this, List.getElem?_map, List.getElem?_range (by rw [maxNumNewlines_eq]; omega)]
      rfl
    · intro j hjv hjC
      rw [buildSplitRow_get? _ _ _ _ hjC, if_pos hjv, safeOffset_eq]

theorem c3_addRow_multiline_witness :
    (AddRowAsArray (mkTable ["a", "b"] []) ["x\ny", "z", "w"]).rows.length
        = 0 + (1 + 1) ∧
    ∃ row, (AddRowAsArray (mkTable ["a", "b"] []) ["x\ny", "z", "w"]).rows.get?
        (0 + 1) = some row ∧
      row.length = 2 ∧
      ∀ j, j < 3 → j < 2 →
        row.get? j = some (
          if 1 < (goSplitLines (["x\ny", "z", "w"].getD j "")).length
          then (goSplitLines (["x\ny", "z", "w"].getD j "")).getD 1 "" else "") :=
  ⟨(c3_addRow_multiline (mkTable ["a", "b"] []) ["x\ny", "z", "w"]).1.trans
      (by decide),
    (c3_addRow_multiline (mkTable ["a", "b"] []) ["x\ny", "z", "w"]).2 1
      (by decide)⟩

/-- C4 counterexample: the claim quantifies over every table with `C ≥ 1`
header columns, but `Transpose` reads `rows[i][0]` unguarded, so a table
holding an empty row — constructible through `SetRows`, which keeps short
rows as they are — makes the Go code panic instead of producing the
described table. -/
theorem c4_transpose_counterexample :
    Transpose (mkTable ["H"] [[]]) = none := rfl

/-- C4 (amended): for every table with `C ≥ 1` header columns, `N` rows and
every row non-empty, `Transpose` produces a table whose header is the old
first header cell followed by every row's first cell, and whose rows are
exactly `C-1` rows of width `N+1`: row `i` starts with `header[i+1]` and
continues with `rows[j][i+1]` when present, else the empty string.  The
`[H0,H1,H2] × [[a1,b1,c1],[a2,b2,c2]]` instance of the claim is included. -/
theorem c4_transpose_amended :
    (∀ t : GoTable, 1 ≤ t.header.length → (∀ r ∈ t.rows, r ≠ []) →
      ∃ t', Transpose t = some t' ∧
        t'.header = t.header.getD 0 "" :: t.rows.map (fun r => r.getD 0 "") ∧
        t'.rows.length = t.header.length - 1 ∧
        ∀ i, i < t.header.length - 1 →
          ∃ row, t'.rows.get? i = some row ∧
            row.length = t.rows.length + 1 ∧
            row.get? 0 = some (t.header.getD (i + 1) "") ∧
            ∀ jj, jj < t.rows.length →
              row.get? (jj + 1) = some (
                if i + 1 < (t.rows.getD jj []).length
                then (t.rows.getD jj []).getD (i + 1) "" else "")) ∧
    (Transpose (mkTable ["H0", "H1", "H2"]
        [["a1", "b1", "c1"], ["a2", "b2", "c2"]])).map
          (fun t' => (t'.header, t'.rows))
      = some (["H0", "a1", "a2"],
          [["H1", "b1", "b2"], ["H2", "c1", "c2"]]) := by
  constructor
  · intro t hC hrows
    have h0 : t.header.get? 0 = some (t.header.getD 0 "") :=
      get?_eq_some_getD _ 0 "" (by omega)
    have hm := mapM_head t.rows hrows
    have htrans : Transpose t = some { t with
        header := t.header.getD 0 "" :: t.rows.map (fun r => r.getD 0 ""),
        rows := (List.range (t.header.length - 1)).map (fun i =>
          t.header.getD (i + 1) "" ::
            t.rows.map (fun row =>
              if i + 1 < row.length then row.getD (i + 1) "" else "")),
        widths := [] } := by
      unfold Transpose
      rw [h0]
      simp only [Option.bind_eq_bind, Option.some_bind]
      rw [hm]
      simp only [Option.some_bind]
      rfl
    refine ⟨_, htrans, rfl, by simp, ?_⟩
    intro i hi
    refine ⟨t.header.getD (i + 1) "" ::
      t.rows.map (fun row =>
        if i + 1 < row.length then row.getD (i + 1) "" else ""), ?_, by simp, rfl, ?_⟩
    · simp only
      rw [List.get?_eq_getElem?, List.getElem?_map, List.getElem?_range hi]
      rfl
    · intro jj hjj
      simp only [List.get?_cons_succ]
      rw [List.get?_eq_getElem?, List.getElem?_map,
        ← List.get?_eq_getElem?, get?_eq_some_getD t.rows jj [] hjj]
      rfl
  · rfl

theorem c4_transpose_amended_witness :
    (∀ r ∈ (mkTable ["H0", "H1", "H2"]
        [["a1", "b1", "c1"], ["a2", "b2", "c2"]]).rows, r ≠ []) ∧
    ∃ t', Transpose (mkTable ["H0", "H1", "H2"]
        [["a1", "b1", "c1"], ["a2", "b2", "c2"]]) = some t' ∧
      t'.header = (mkTable ["H0", "H1", "H2"]
          [["a1", "b1", "c1"], ["a2", "b2", "c2"]]).header.getD 0 "" ::
        (mkTable ["H0", "H1", "H2"]
          [["a1", "b1", "c1"], ["a2", "b2", "c2"]]).rows.map
            (fun r => r.getD 0 "") ∧
      t'.rows.length = (mkTable ["H0", "H1", "H2"]
          [["a1", "b1", "c1"], ["a2", "b2", "c2"]]).header.length - 1 ∧
      ∀ i, i < (mkTable ["H0", "H1", "H2"]
          [["a1", "b1", "c1"], ["a2", "b2", "c2"]]).header.length - 1 →
        ∃ row, t'.rows.get? i = some row ∧
          row.length = (mkTable ["H0", "H1", "H2"]
              [["a1", "b1", "c1"], ["a2", "b2", "c2"]]).rows.length + 1 ∧
          row.get? 0 = some ((mkTable ["H0", "H1", "H2"]
              [["a1", "b1", "c1"], ["a2", "b2", "c2"]]).header.getD (i + 1) "") ∧
          ∀ jj, jj < (mkTable ["H0", "H1", "H2"]
              [["a1", "b1", "c1"], ["a2", "b2", "c2"]]).rows.length →
            row.get? (jj + 1) = some (
              if i + 1 < ((mkTable ["H0", "H1", "H2"]
                  [["a1", "b1", "c1"], ["a2", "b2", "c2"]]).rows.getD jj []).length
              then ((mkTable ["H0", "H1", "H2"]
                  [["a1", "b1", "c1"], ["a2", "b2", "c2"]]).rows.getD jj []).getD
                    (i + 1) ""
              else "") :=
  ⟨by decide,
    c4_transpose_amended.1 (mkTable ["H0", "H1", "H2"]
      [["a1", "b1", "c1"], ["a2", "b2", "c2"]]) (by decide) (by decide)⟩

/-- C5: the comparator contract.  `StringComparison("apple","banana") = -1`
and `NumericalComparison("10","5") = 1`; for the numeric family
(`NumericalComparison`, `CurrencyComparison`, `PercentComparison`) an
unparsable value compares after any parsable one and two unparsable values
compare equal; for `BoolComparison` an unparsable value compares before any
parsable one and two unparsable values compare equal; in particular
`NumericalComparison("bad","5") = 1` and
`BoolComparison("invalid","false") = -1`. -/
theorem c5_comparator_contract :
    StringComparison "apple" "banana" = -1 ∧
    NumericalComparison "10" "5" = 1 ∧
    NumericalComparison "bad" "5" = 1 ∧
    BoolComparison "invalid" "false" = -1 ∧
    (∀ a b, parseFloatGo a = none → parseFloatGo b ≠ none →
      NumericalComparison a b = 1 ∧ NumericalComparison b a = -1) ∧
    (∀ a b, parseFloatGo a = none → parseFloatGo b = none →
      NumericalComparison a b = 0) ∧
    (∀ a b, parseCurrencyString a = none → parseCurrencyString b ≠ none →
      CurrencyComparison a b = 1 ∧ CurrencyComparison b a = -1) ∧
    (∀ a b, parseCurrencyString a = none → parseCurrencyString b = none →
      CurrencyComparison a b = 0) ∧
    (∀ a b, parsePercentString a = none → parsePercentString b ≠ none →
      PercentComparison a b = 1 ∧ PercentComparison b a = -1) ∧
    (∀ a b, parsePercentString a = none → parsePercentString b = none →
      PercentComparison a b = 0) ∧
    (∀ a b, parseBoolGo a = none → parseBoolGo b ≠ none →
      BoolComparison a b = -1 ∧ BoolComparison b a = 1) ∧
    (∀ a b, parseBoolGo a = none → parseBoolGo b = none →
      BoolComparison a b = 0) := by
  refine ⟨by decide, by decide, by decide, by decide, ?_, ?_, ?_, ?_, ?_, ?_, ?_, ?_⟩
  · intro a b ha hb
    cases hpb : parseFloatGo b with
    | none => exact absurd hpb hb
    | some x => exact ⟨by simp [NumericalComparison, ha, hpb],
        by simp [NumericalComparison, ha, hpb]⟩
  · intro a b ha hb
    simp [NumericalComparison, ha, hb]
  · intro a b ha hb
    cases hpb : parseCurrencyString b with
    | none => exact absurd hpb hb
    | some x => exact ⟨by simp [CurrencyComparison, ha, hpb],
        by simp [CurrencyComparison, ha, hpb]⟩
  · intro a b ha hb
    simp [CurrencyComparison, ha, hb]
  · intro a b ha hb
    cases hpb : parsePercentString b with
    | none => exact absurd hpb hb
    | some x => exact ⟨by simp [PercentComparison, ha, hpb],
        by simp [PercentComparison, ha, hpb]⟩
  · intro a b ha hb
    simp [PercentComparison, ha, hb]
  · intro a b ha hb
    cases hpb : parseBoolGo b with
    | none => exact absurd hpb hb
    | some x => exact ⟨by simp [BoolComparison, ha, hpb],
        by simp [BoolComparison, ha, hpb]⟩
  · intro a b ha hb
    simp [BoolComparison, ha, hb]

theorem c5_comparator_contract_witness :
    (NumericalComparison "bad" "5" = 1 ∧ NumericalComparison "5" "bad" = -1) ∧
    (BoolComparison "invalid" "false" = -1 ∧
      BoolComparison "false" "invalid" = 1) :=
  ⟨c5_comparator_contract.2.2.2.2.1 "bad" "5" (by decide) (by decide),
    c5_comparator_contract.2.2.2.2.2.2.2.2.2.2.1 "invalid" "false"
      (by decide) (by decide)⟩

/-- C7: `ExportJSON(keyColumn)` fails with the invalid-index error exactly
when `keyColumn` is outside `0 ≤ keyColumn < C`; in range, it fails with
the index-out-of-range error exactly when some stored row is shorter than
`keyColumn+1`; otherwise it writes the single JSON object whose map sends
each key to the row map of the *last* row carrying that key cell (a later
row silently overwrites an earlier duplicate), and on the
`["ID","Name"] × [["1","Foo"],["2","Bar"]]` example with key column 0 the
exact bytes of the claim are produced. -/
theorem c7_export_json :
    (∀ (t : GoTable) (kc : Int),
      ExportJSON t kc = .errInvalidIndex ↔
        kc < 0 ∨ (t.header.length : Int) ≤ kc) ∧
    (∀ (t : GoTable) (kc : Int), ¬(kc < 0 ∨ (t.header.length : Int) ≤ kc) →
      (ExportJSON t kc = .errShortRow ↔ ∃ r ∈ t.rows, r.length ≤ kc.toNat)) ∧
    (∀ (t : GoTable) (kc : Int) (s : String), ExportJSON t kc = .ok s →
      ∃ data, buildJSONData t.header kc.toNat [] t.rows = some data ∧
        s = marshalOuter data ∧
        ∀ k, alookup k data =
          (t.rows.reverse.find? (fun r => r.getD kc.toNat "" == k)).map
            (buildRowMap t.header)) ∧
    ExportJSON (mkTable ["ID", "Name"] [["1", "Foo"], ["2", "Bar"]]) 0 =
      .ok "\x7b\"1\":\x7b\"ID\":\"1\",\"Name\":\"Foo\"\x7d,\"2\":\x7b\"ID\":\"2\",\"Name\":\"Bar\"\x7d\x7d" := by
  refine ⟨?_, ?_, ?_, by decide⟩
  · intro t kc
    unfold ExportJSON
    by_cases hc : kc < 0 ∨ (t.header.length : Int) ≤ kc
    · simp only [if_pos hc]
      exact ⟨fun _ => hc, fun _ => by trivial⟩
    · simp only [if_neg hc]
      constructor
      · intro h
        cases hd : buildJSONData t.header kc.toNat [] t.rows with
        | none => rw [hd] at h; exact absurd h (by simp)
        | some d => rw [hd] at h; exact absurd h (by simp)
      · intro h; exact absurd h hc
  · intro t kc hc
    unfold ExportJSON
    rw [if_neg hc]
    cases hd : buildJSONData t.header kc.toNat [] t.rows with
    | none =>
      simp only
      constructor
      · intro _; exact (buildJSONData_none_iff t.header kc.toNat t.rows []).mp hd
      · intro _; trivial
    | some d =>
      simp only
      constructor
      · intro h; exact absurd h (by simp)
      · intro hshort
        have := (buildJSONData_none_iff t.header kc.toNat t.rows []).mpr hshort
        rw [hd] at this
        exact absurd this (by simp)
  · intro t kc s h
    unfold ExportJSON at h
    by_cases hc : kc < 0 ∨ (t.header.length : Int) ≤ kc
    · rw [if_pos hc] at h; exact absurd h (by simp)
    · rw [if_neg hc] at h
      cases hd : buildJSONData t.header kc.toNat [] t.rows with
      | none => rw [hd] at h; exact absurd h (by simp)
      | some d =>
        rw [hd] at h
        simp only [JSONOutcome.ok.injEq] at h
        refine ⟨d, rfl, h.symm, ?_⟩
        intro k
        have := buildJSONData_alookup t.header kc.toNat k t.rows [] d hd
        rw [this]
        exact Option.orElse_none' _

theorem c7_export_json_witness :
    (ExportJSON (mkTable ["ID"] [[]]) 0 = JSONOutcome.errShortRow) ∧
    ∃ data, buildJSONData (mkTable ["ID", "Name"]
        [["1", "Foo"], ["2", "Bar"]]).header (Int.toNat 0) []
        (mkTable ["ID", "Name"] [["1", "Foo"], ["2", "Bar"]]).rows = some data ∧
      "\x7b\"1\":\x7b\"ID\":\"1\",\"Name\":\"Foo\"\x7d,\"2\":\x7b\"ID\":\"2\",\"Name\":\"Bar\"\x7d\x7d"
        = marshalOuter data ∧
      ∀ k, alookup k data =
        ((mkTable ["ID", "Name"] [["1", "Foo"], ["2", "Bar"]]).rows.reverse.find?
          (fun r => r.getD (Int.toNat 0) "" == k)).map
            (buildRowMap (mkTable ["ID", "Name"] [["1", "Foo"], ["2", "Bar"]]).header) :=
  ⟨((c7_export_json.2.1 (mkTable ["ID"] [[]]) 0 (by decide)).mpr
      ⟨[], by decide, by decide⟩),
    c7_export_json.2.2.1 (mkTable ["ID", "Name"] [["1", "Foo"], ["2", "Bar"]]) 0
      "\x7b\"1\":\x7b\"ID\":\"1\",\"Name\":\"Foo\"\x7d,\"2\":\x7b\"ID\":\"2\",\"Name\":\"Bar\"\x7d\x7d"
      (by decide)⟩

/-- C8 counterexample: `SetRows` permits rows shorter than the header, but
`SortBy`'s comparison closure indexes `t.rows[i][n]` unguarded, so sorting
a two-row table whose first row is empty is a run-time index-out-of-range
fault in Go, not an explicit failure result. -/
theorem c8_sort_short_row_panics :
    SortBy (mkTable ["h"] [[], ["x"]]) 0 StringComparison
      = SortOutcome.panicked := rfl

/-- C8 (amended): when every stored row covers the sort column (and, for
`SortByMultiple`, every criterion column), a sort call with valid indices
completes normally, and a sort call with an invalid index reports it via
the explicit error result with the table untouched; no fault occurs.  The
unamended claim fails for rows shorter than the sort column (see the
counterexample). -/
theorem c8_sort_no_fault_when_rows_cover :
    (∀ (t : GoTable) (n : Int) (cmp : String → String → Int),
      (0 ≤ n → n < (t.header.length : Int) →
        (∀ r ∈ t.rows, n.toNat < r.length) →
        ∃ t', SortBy t n cmp = .ok t') ∧
      (n < 0 ∨ (t.header.length : Int) ≤ n → SortBy t n cmp = .errored t)) ∧
    (∀ (t : GoTable) (criteria : List SortCriterion),
      (∀ c ∈ criteria, 0 ≤ c.ColumnIndex ∧
        c.ColumnIndex < (t.header.length : Int)) →
      (∀ r ∈ t.rows, ∀ c ∈ criteria, c.ColumnIndex.toNat < r.length) →
      ∃ t', SortByMultiple t criteria = .ok t') := by
  constructor
  · intro t n cmp
    constructor
    · intro hn0 hnC hcover
      have htot : ∀ p ∈ t.rows.enum, ∀ q ∈ t.rows.enum,
          (fun p q : Nat × List String => rowLessM n.toNat cmp p.2 q.2) p q
            ≠ none := by
        intro p hp q hq
        have hp2 := hcover p.2 (mem_enum_snd hp)
        have hq2 := hcover q.2 (mem_enum_snd hq)
        have hpc := get?_eq_some_getD p.2 n.toNat "" hp2
        have hqc := get?_eq_some_getD q.2 n.toNat "" hq2
        simp only [rowLessM, hpc, hqc, Option.bind_eq_bind, Option.some_bind]
        simp
      obtain ⟨R, hR⟩ := foldlM_insRev_total _ t.rows.enum htot t.rows.enum []
        (fun x hx => hx) (by simp)
      refine ⟨{ t with rows := R.reverse.map Prod.snd }, ?_⟩
      unfold SortBy
      rw [if_neg (by omega)]
      unfold sliceStable sortRevM
      rw [hR]
      rfl
    · intro hc
      unfold SortBy
      rw [if_pos hc]
  · intro t criteria hvalid hcover
    have htot : ∀ p ∈ t.rows.enum, ∀ q ∈ t.rows.enum,
        (fun p q : Nat × List String => multiLessM criteria p.2 q.2) p q
          ≠ none := by
      intro p hp q hq
      have hp2 := mem_enum_snd hp
      have hq2 := mem_enum_snd hq
      clear hp hq
      induction criteria with
      | nil => simp [multiLessM]
      | cons c rest ih =>
        have hpc := get?_eq_some_getD p.2 c.ColumnIndex.toNat ""
          (hcover p.2 hp2 c (List.mem_cons_self _ _))
        have hqc := get?_eq_some_getD q.2 c.ColumnIndex.toNat ""
          (hcover q.2 hq2 c (List.mem_cons_self _ _))
        have ih' := ih
          (fun c' hc' => hvalid c' (List.mem_cons_of_mem _ hc'))
          (fun r hr c' hc' => hcover r hr c' (List.mem_cons_of_mem _ hc'))
        simp only [multiLessM, hpc, hqc, Option.bind_eq_bind, Option.some_bind]
        split
        · simp
        · split
          · simp
          · exact ih'
    have hval' : ¬ ∃ c ∈ criteria, c.ColumnIndex < 0 ∨
        (t.header.length : Int) ≤ c.ColumnIndex := by
      rintro ⟨c, hc, hbad⟩
      rcases hvalid c hc with ⟨h1, h2⟩
      omega
    obtain ⟨R, hR⟩ := foldlM_insRev_total _ t.rows.enum htot t.rows.enum []
      (fun x hx => hx) (by simp)
    refine ⟨{ t with rows := R.reverse.map Prod.snd }, ?_⟩
    unfold SortByMultiple
    rw [if_neg hval']
    unfold sliceStable sortRevM
    rw [hR]
    rfl

theorem c8_sort_no_fault_witness :
    (∃ t', SortBy (mkTable ["h"] [["b"], ["a"]]) 0 StringComparison
      = SortOutcome.ok t') ∧
    SortBy (mkTable ["h"] [["b"], ["a"]]) (-1) StringComparison
      = SortOutcome.errored (mkTable ["h"] [["b"], ["a"]]) ∧
    ∃ t', SortByMultiple (mkTable ["h"] [["b"], ["a"]])
      [⟨0, StringComparison⟩] = SortOutcome.ok t' :=
  ⟨((c8_sort_no_fault_when_rows_cover.1 (mkTable ["h"] [["b"], ["a"]]) 0
      StringComparison).1 (by decide) (by decide) (by decide)),
    ((c8_sort_no_fault_when_rows_cover.1 (mkTable ["h"] [["b"], ["a"]]) (-1)
      StringComparison).2 (by decide)),
    (c8_sort_no_fault_when_rows_cover.2 (mkTable ["h"] [["b"], ["a"]])
      [⟨0, StringComparison⟩] (by decide) (by decide))⟩

end TableSpec
